import Mathlib

/-!
Verification of the piff diff/patch tool (src/piff.py).

The development shallowly embeds the program:
- the dynamic-programming edit-distance engine (function edit_distance,
  lines 25-84) with its mutable distances/actions tables modelled as
  lists of lists filled by folds in the same order as the Python loops;
- the backtrace while-loop modelled with explicit fuel;
- the patch-line grammar (PATCH_LINE_REGEXP, line 87) and the decode loop
  of PatchSubcommand.run (lines 141-153), with Python strings modelled as
  lists of characters and readlines modelled by splitLines;
- the apply loop (lines 155-161), with Python list.insert clamping
  semantics and list.pop raising on an out-of-range index.

Functional reference versions of the tables (distF, actF) and of the
backtrace (btF) are proved equal to the loop-built ones and carry the
inductive proofs.
-/

namespace Piff

/-- Python strings are modelled as lists of characters. -/
abbrev PyStr := List Char

/-- An edit operation as the Python tuple (action, index, line): the action
character is one of I, A, R for engine output, and arbitrary for decoded
input before validation. -/
abbrev Op (α : Type) := Char × Nat × α

/-- A two-dimensional table, as the Python nested lists. -/
abbrev Tbl (β : Type) := List (List β)

/-- Reading cell (i, j) of a table, with a default for out-of-range reads. -/
def tget (t : Tbl β) (i j : Nat) (d : β) : β := (t.getD i []).getD j d

/-- Writing cell (i, j) of a table, as the Python assignment t[i][j] = v. -/
def tset (t : Tbl β) (i j : Nat) (v : β) : Tbl β := t.set i ((t.getD i []).set j v)

/-- The initial table built by the append loop at lines 29-33: (m1 + 1) rows
of (m2 + 1) copies of an initial value. -/
def initTbl (v : β) (m1 m2 : Nat) : Tbl β := List.replicate (m1 + 1) (List.replicate (m2 + 1) v)

/-- A table has the shape of a (m1 + 1) by (m2 + 1) array. -/
def Shaped (t : Tbl β) (m1 m2 : Nat) : Prop :=
  t.length = m1 + 1 ∧ ∀ r ∈ t, r.length = m2 + 1

variable {α : Type} [DecidableEq α] [Inhabited α]

/-- The body of the double loop at lines 48-65 for one cell (n1, n2): the
net effect of the sequence of writes to distances[n1][n2] and
actions[n1][n2] performed by the Python code. -/
def fillCell (s1 s2 : List α) (p : Tbl Nat × Tbl Char) (n1 n2 : Nat) : Tbl Nat × Tbl Char :=
  if s1.getD (n1 - 1) default = s2.getD (n2 - 1) default then
    (tset p.1 n1 n2 (tget p.1 (n1 - 1) (n2 - 1) 0), tset p.2 n1 n2 'I')
  else if tget p.1 (n1 - 1) n2 0 > tget p.1 n1 (n2 - 1) 0 then
    (tset p.1 n1 n2 (tget p.1 n1 (n2 - 1) 0 + 1), tset p.2 n1 n2 'A')
  else (tset p.1 n1 n2 (tget p.1 (n1 - 1) n2 0 + 1), tset p.2 n1 n2 'R')

/-- Lines 35-36: the writes to cell (0, 0). -/
def tblInit (s1 s2 : List α) : Tbl Nat × Tbl Char :=
  (tset (initTbl 0 s1.length s2.length) 0 0 0,
   tset (initTbl '-' s1.length s2.length) 0 0 'I')

/-- Lines 38-41: the loop filling row 0 with ascending costs and action A. -/
def tblRow0 (s1 s2 : List α) : Tbl Nat × Tbl Char :=
  (List.range' 1 s2.length).foldl
    (fun p n2 => (tset p.1 0 n2 n2, tset p.2 0 n2 'A')) (tblInit s1 s2)

/-- Lines 43-46: the loop filling column 0 with ascending costs and action R. -/
def tblCol0 (s1 s2 : List α) : Tbl Nat × Tbl Char :=
  (List.range' 1 s1.length).foldl
    (fun p n1 => (tset p.1 n1 0 n1, tset p.2 n1 0 'R')) (tblRow0 s1 s2)

/-- The inner loop at lines 49-65 for a fixed row n1. -/
def fillRow (s1 s2 : List α) (p : Tbl Nat × Tbl Char) (n1 : Nat) : Tbl Nat × Tbl Char :=
  (List.range' 1 s2.length).foldl (fun q n2 => fillCell s1 s2 q n1 n2) p

/-- The fully filled distances and actions tables after the forward pass of
edit_distance (lines 26-65). -/
def fillTables (s1 s2 : List α) : Tbl Nat × Tbl Char :=
  (List.range' 1 s1.length).foldl (fillRow s1 s2) (tblCol0 s1 s2)

/-- Functional reference version of the distances table: the value the
forward pass stores in distances[n1][n2]. -/
def distF (s1 s2 : List α) : Nat → Nat → Nat
  | 0, 0 => 0
  | 0, n2 + 1 => n2 + 1
  | n1 + 1, 0 => n1 + 1
  | n1 + 1, n2 + 1 =>
    if s1.getD n1 default = s2.getD n2 default then distF s1 s2 n1 n2
    else min (distF s1 s2 n1 (n2 + 1)) (distF s1 s2 (n1 + 1) n2) + 1
termination_by n1 n2 => (n1, n2)

/-- Functional reference version of the actions table: the action character
the forward pass stores in actions[n1][n2]. -/
def actF (s1 s2 : List α) : Nat → Nat → Char
  | 0, 0 => 'I'
  | 0, _ + 1 => 'A'
  | _ + 1, 0 => 'R'
  | n1 + 1, n2 + 1 =>
    if s1.getD n1 default = s2.getD n2 default then 'I'
    else if distF s1 s2 n1 (n2 + 1) > distF s1 s2 (n1 + 1) n2 then 'A'
    else 'R'

/-- Functional reference version of the backtrace loop (lines 67-82),
returning the operations in the order the loop appends them. -/
def btF (s1 s2 : List α) : Nat → Nat → List (Op α)
  | 0, 0 => []
  | 0, n2 + 1 => ('A', n2, s2.getD n2 default) :: btF s1 s2 0 n2
  | n1 + 1, 0 => ('R', n1, s1.getD n1 default) :: btF s1 s2 n1 0
  | n1 + 1, n2 + 1 =>
    if s1.getD n1 default = s2.getD n2 default then btF s1 s2 n1 n2
    else if distF s1 s2 n1 (n2 + 1) > distF s1 s2 (n1 + 1) n2 then
      ('A', n2, s2.getD n2 default) :: btF s1 s2 (n1 + 1) n2
    else ('R', n1, s1.getD n1 default) :: btF s1 s2 n1 (n2 + 1)
termination_by n1 n2 => n1 + n2

/-- Result of the backtrace loop: the collected operations, exhaustion of
the step budget, or the assert False at line 82. -/
inductive BtRes (α : Type) where
  | ok : List (Op α) → BtRes α
  | outOfFuel : BtRes α
  | unreachableHit : BtRes α
deriving DecidableEq

/-- The backtrace while-loop (lines 67-82) reading the actions table built
by the forward pass, with an explicit budget of loop iterations. Each
iteration reads actions[n1][n2] and either steps by the action or hits the
assert False branch. -/
def btFuelT (s1 s2 : List α) (acts : Tbl Char) : Nat → Nat → Nat → BtRes α
  | fuel, n1, n2 =>
    if n1 = 0 ∧ n2 = 0 then .ok []
    else
      match fuel with
      | 0 => .outOfFuel
      | fuel + 1 =>
        let c := tget acts n1 n2 '-'
        if c = 'A' then
          match btFuelT s1 s2 acts fuel n1 (n2 - 1) with
          | .ok l => .ok (('A', n2 - 1, s2.getD (n2 - 1) default) :: l)
          | r => r
        else if c = 'R' then
          match btFuelT s1 s2 acts fuel (n1 - 1) n2 with
          | .ok l => .ok (('R', n1 - 1, s1.getD (n1 - 1) default) :: l)
          | r => r
        else if c = 'I' then btFuelT s1 s2 acts fuel (n1 - 1) (n2 - 1)
        else .unreachableHit

/-- The function edit_distance (lines 25-84): forward pass, backtrace with
a budget of len(s1) + len(s2) iterations, final reversal. The fallback
branches are proved unreachable. -/
def edit_distance (s1 s2 : List α) : List (Op α) :=
  match btFuelT s1 s2 (fillTables s1 s2).2 (s1.length + s2.length) s1.length s2.length with
  | .ok l => l.reverse
  | _ => []

/-- Python list.insert semantics for a non-negative index: insert before
position i, clamping to the end when i exceeds the length. -/
def pyInsert (l : List α) (i : Nat) (x : α) : List α := l.take i ++ x :: l.drop i

/-- Python list.pop semantics for a non-negative index: remove and return
the rest, or raise IndexError (none) when the index is out of range. -/
def pyPop (l : List α) (i : Nat) : Option (List α) :=
  if i < l.length then some (l.eraseIdx i) else none

/-- Result of the apply loop: the final line list, an IndexError from pop,
or the assert False at line 161. -/
inductive ApplyResult (α : Type) where
  | ok : List α → ApplyResult α
  | idxErr : ApplyResult α
  | badAction : ApplyResult α
deriving DecidableEq

/-- The body of the apply loop (lines 155-161), processing operations in
the order given. -/
def applyLoop (lines : List α) : List (Op α) → ApplyResult α
  | [] => .ok lines
  | (a, row, line) :: rest =>
    if a = 'A' then applyLoop (pyInsert lines row line) rest
    else if a = 'R' then
      match pyPop lines row with
      | some l => applyLoop l rest
      | none => .idxErr
    else .badAction

/-- The apply phase of PatchSubcommand.run (line 155): the parsed patch is
walked in reversed order. -/
def applyPy (lines : List α) (patch : List (Op α)) : ApplyResult α :=
  applyLoop lines patch.reverse

/-- Insert/delete-only Levenshtein distance, the independent textbook
recursion used to state minimality. -/
def lev : List α → List α → Nat
  | [], ys => ys.length
  | _ :: xs, [] => xs.length + 1
  | x :: xs, y :: ys =>
    if x = y then lev xs ys
    else 1 + min (lev xs (y :: ys)) (lev (x :: xs) ys)
termination_by xs ys => (xs, ys)

/-- The decimal digit character of a value below ten. -/
def digitChar : Nat → Char
  | 0 => '0' | 1 => '1' | 2 => '2' | 3 => '3' | 4 => '4'
  | 5 => '5' | 6 => '6' | 7 => '7' | 8 => '8' | _ => '9'

/-- The numeric value of a decimal digit character. -/
def digitVal (c : Char) : Nat := c.toNat - 48

/-- The value of a string of decimal digits, as Python int() on the digits
captured by the second regexp group. -/
def natOfDigits (ds : List Char) : Nat := ds.foldl (fun a c => 10 * a + digitVal c) 0

/-- Decimal digits of a number, fuelled so that it is structurally
recursive; natDigits supplies sufficient fuel. -/
def natDigitsF : Nat → Nat → List Char
  | 0, _ => []
  | fuel + 1, n =>
    if n < 10 then [digitChar n]
    else natDigitsF fuel (n / 10) ++ [digitChar (n % 10)]

/-- The decimal rendering of a natural number, as the Python f-string
renders the operation index. -/
def natDigits (n : Nat) : List Char := natDigitsF (n + 1) n

/-- Helper of splitLines carrying the characters of the current line in
reverse. -/
def splitLinesAux (acc : List Char) : List Char → List (List Char)
  | [] => if acc.isEmpty then [] else [acc.reverse]
  | c :: rest =>
    if c = '\n' then (acc.reverse ++ ['\n']) :: splitLinesAux [] rest
    else splitLinesAux (c :: acc) rest

/-- Python readlines on a file content: split into lines, each keeping its
trailing newline; a last line without terminator is kept, an empty tail is
not a line. -/
def splitLines (s : PyStr) : List PyStr := splitLinesAux [] s

/-- Matching of one line against PATCH_LINE_REGEXP (line 87), the pattern
([AR]) (\d+) (.*) applied with re.match: a tag character A or R, a space, a
nonempty run of digits, a space, then the rest of the line up to a newline.
Returns the tuple built at line 151 from the three groups. -/
def matchPatchLine (l : PyStr) : Option (Op PyStr) :=
  match l with
  | t :: sp :: rest1 =>
    if sp = ' ' ∧ (t = 'A' ∨ t = 'R') ∧ (rest1.takeWhile Char.isDigit).isEmpty = false
        ∧ (rest1.dropWhile Char.isDigit).head? = some ' ' then
      some (t, natOfDigits (rest1.takeWhile Char.isDigit),
        ((rest1.dropWhile Char.isDigit).tail).takeWhile (fun c => c != '\n'))
    else none
  | _ => none

/-- The decode loop of PatchSubcommand.run (lines 141-151): walk the lines
with their row numbers, skip lines of length zero, collect parsed
operations and, for each line the regexp rejects, an error carrying the
one-based line number and the raw line. -/
def decodeAux (row : Nat) : List PyStr → List (Op PyStr) × List (Nat × PyStr)
  | [] => ([], [])
  | l :: rest =>
    if l.length = 0 then decodeAux (row + 1) rest
    else
      match matchPatchLine l with
      | none => ((decodeAux (row + 1) rest).1, (row + 1, l) :: (decodeAux (row + 1) rest).2)
      | some op => (op :: (decodeAux (row + 1) rest).1, (decodeAux (row + 1) rest).2)

/-- The patch subcommand on in-memory data (lines 140-161): decode the
patch text; when any line was malformed return all collected errors
without applying anything, otherwise apply the operations in reversed
order. -/
def patchRun (src : List PyStr) (text : PyStr) :
    Except (List (Nat × PyStr)) (ApplyResult PyStr) :=
  if (decodeAux 0 (splitLines text)).2.isEmpty then
    Except.ok (applyPy src (decodeAux 0 (splitLines text)).1)
  else Except.error (decodeAux 0 (splitLines text)).2

/-- The encoding of one operation by DiffSubcommand.run (lines 122-123):
the f-string tag, space, decimal index, space, line content, followed by
the newline print appends. -/
def encodeOp (op : Op PyStr) : PyStr :=
  op.1 :: ' ' :: (natDigits op.2.1 ++ ' ' :: (op.2.2 ++ ['\n']))

/-- The full printed patch text of a script. -/
def encodeScript (s : List (Op PyStr)) : PyStr := (s.map encodeOp).flatten

/-- Cell contents of the distances table after the base fills and the first
k rows of the main double loop. -/
def dVal (s1 s2 : List α) (k i j : Nat) : Nat :=
  if i ≤ k ∨ j = 0 then distF s1 s2 i j else 0

/-- Cell contents of the actions table after the base fills and the first
k rows of the main double loop. -/
def aVal (s1 s2 : List α) (k i j : Nat) : Char :=
  if i ≤ k ∨ j = 0 then actF s1 s2 i j else '-'

/-- Cell contents of the distances table while the main loop is filling row
k + 1 and has processed columns 1..c of it. -/
def dValR (s1 s2 : List α) (k c i j : Nat) : Nat :=
  if i ≤ k ∨ j = 0 ∨ (i = k + 1 ∧ j ≤ c) then distF s1 s2 i j else 0

/-- Cell contents of the actions table while the main loop is filling row
k + 1 and has processed columns 1..c of it. -/
def aValR (s1 s2 : List α) (k c i j : Nat) : Char :=
  if i ≤ k ∨ j = 0 ∨ (i = k + 1 ∧ j ≤ c) then actF s1 s2 i j else '-'

/-- Pointwise description of a pair of tables on the in-range cells. -/
def TblVals (s1 s2 : List α) (p : Tbl Nat × Tbl Char)
    (fd : Nat → Nat → Nat) (fa : Nat → Nat → Char) : Prop :=
  Shaped p.1 s1.length s2.length ∧ Shaped p.2 s1.length s2.length ∧
  ∀ i j, i ≤ s1.length → j ≤ s2.length →
    tget p.1 i j 0 = fd i j ∧ tget p.2 i j '-' = fa i j

theorem shaped_initTbl (v : β) (m1 m2 : Nat) : Shaped (initTbl v m1 m2) m1 m2 := by
  constructor
  · simp [initTbl]
  · intro r hr
    simp only [initTbl, List.mem_replicate] at hr
    simp [hr.2]

theorem Shaped.row_len {t : Tbl β} {m1 m2 : Nat} (h : Shaped t m1 m2) {i : Nat} (hi : i ≤ m1) :
    (t.getD i []).length = m2 + 1 := by
  have hlt : i < t.length := by rw [h.1]; omega
  have hrow : t.getD i [] = t[i] := by
    rw [List.getD_eq_getElem?_getD, List.getElem?_eq_getElem hlt, Option.getD_some]
  rw [hrow]
  exact h.2 _ (List.getElem_mem hlt)

theorem shaped_tset {t : Tbl β} {m1 m2 : Nat} (h : Shaped t m1 m2) (i j : Nat) (v : β) :
    Shaped (tset t i j v) m1 m2 := by
  by_cases hi : i < t.length
  · refine ⟨by simp [tset, h.1], ?_⟩
    intro r hr
    rcases List.mem_or_eq_of_mem_set hr with hr | hr
    · exact h.2 _ hr
    · subst hr
      rw [List.length_set]
      have hile : i ≤ m1 := by have h1 := h.1; omega
      exact h.row_len hile
  · rw [tset, List.set_eq_of_length_le (by omega)]
    exact h

theorem row_of_tset_lt {t : Tbl β} {i : Nat} (h : i < t.length) (r : List β) :
    (t.set i r).getD i [] = r := by
  rw [List.getD_eq_getElem?_getD, List.getElem?_set_self (by simpa using h), Option.getD_some]

theorem row_of_tset_ne {t : Tbl β} {i i' : Nat} (h : i' ≠ i) (r : List β) :
    (t.set i r).getD i' [] = t.getD i' [] := by
  rw [List.getD_eq_getElem?_getD, List.getElem?_set_ne (Ne.symm h), ← List.getD_eq_getElem?_getD]

theorem tget_tset_eq {t : Tbl β} {i j : Nat} (hi : i < t.length)
    (hj : j < (t.getD i []).length) (v d : β) :
    tget (tset t i j v) i j d = v := by
  unfold tget tset
  rw [row_of_tset_lt hi]
  rw [List.getD_eq_getElem?_getD, List.getElem?_set_self (by simpa using hj), Option.getD_some]

theorem tget_tset_ne {t : Tbl β} {i j i' j' : Nat} (h : i' ≠ i ∨ j' ≠ j) (v d : β) :
    tget (tset t i j v) i' j' d = tget t i' j' d := by
  unfold tget tset
  by_cases hii : i' = i
  · subst hii
    have hjj : j' ≠ j := by tauto
    by_cases hlen : i' < t.length
    · rw [row_of_tset_lt hlen]
      rw [List.getD_eq_getElem?_getD, List.getElem?_set_ne (Ne.symm hjj),
        ← List.getD_eq_getElem?_getD]
    · rw [List.set_eq_of_length_le (by omega)]
  · rw [row_of_tset_ne hii]

theorem tget_initTbl (v : β) {m1 m2 i j : Nat} (hi : i ≤ m1) (hj : j ≤ m2) (d : β) :
    tget (initTbl v m1 m2) i j d = v := by
  unfold tget initTbl
  have h1 : (List.replicate (m1 + 1) (List.replicate (m2 + 1) v)).getD i []
      = List.replicate (m2 + 1) v := by
    rw [List.getD_eq_getElem?_getD, List.getElem?_replicate_of_lt (by omega), Option.getD_some]
  rw [h1, List.getD_eq_getElem?_getD, List.getElem?_replicate_of_lt (by omega), Option.getD_some]

theorem TblVals.write {s1 s2 : List α} {p : Tbl Nat × Tbl Char} {fd fa}
    (h : TblVals s1 s2 p fd fa) (i0 j0 : Nat) (hi0 : i0 ≤ s1.length) (hj0 : j0 ≤ s2.length)
    (v : Nat) (c : Char) :
    TblVals s1 s2 (tset p.1 i0 j0 v, tset p.2 i0 j0 c)
      (fun i j => if i = i0 ∧ j = j0 then v else fd i j)
      (fun i j => if i = i0 ∧ j = j0 then c else fa i j) := by
  obtain ⟨hs1, hs2, hv⟩ := h
  refine ⟨shaped_tset hs1 _ _ _, shaped_tset hs2 _ _ _, ?_⟩
  intro i j hi hj
  by_cases heq : i = i0 ∧ j = j0
  · obtain ⟨rfl, rfl⟩ := heq
    constructor
    · rw [tget_tset_eq (by rw [hs1.1]; omega) (by rw [hs1.row_len hi0]; omega)]
      simp
    · rw [tget_tset_eq (by rw [hs2.1]; omega) (by rw [hs2.row_len hi0]; omega)]
      simp
  · have hne : i ≠ i0 ∨ j ≠ j0 := by tauto
    constructor
    · rw [tget_tset_ne hne, (hv i j hi hj).1]
      simp [heq]
    · rw [tget_tset_ne hne, (hv i j hi hj).2]
      simp [heq]

theorem TblVals.congr {s1 s2 : List α} {p : Tbl Nat × Tbl Char} {fd fa fd' fa'}
    (h : TblVals s1 s2 p fd fa)
    (hd : ∀ i j, i ≤ s1.length → j ≤ s2.length → fd i j = fd' i j)
    (ha : ∀ i j, i ≤ s1.length → j ≤ s2.length → fa i j = fa' i j) :
    TblVals s1 s2 p fd' fa' := by
  refine ⟨h.1, h.2.1, fun i j hi hj => ?_⟩
  rw [← hd i j hi hj, ← ha i j hi hj]
  exact h.2.2 i j hi hj

theorem distF_row0 (s1 s2 : List α) (j : Nat) : distF s1 s2 0 j = j := by
  cases j <;> simp [distF]

theorem distF_col0 (s1 s2 : List α) (i : Nat) : distF s1 s2 i 0 = i := by
  cases i <;> simp [distF]

theorem actF_row0 (s1 s2 : List α) (j : Nat) :
    actF s1 s2 0 j = if j = 0 then 'I' else 'A' := by
  cases j <;> simp [actF]

theorem actF_col0 (s1 s2 : List α) (i : Nat) :
    actF s1 s2 i 0 = if i = 0 then 'I' else 'R' := by
  cases i <;> simp [actF]

theorem tblInit_vals (s1 s2 : List α) :
    TblVals s1 s2 (tblInit s1 s2) (fun _ _ => 0)
      (fun i j => if i = 0 ∧ j = 0 then 'I' else '-') := by
  have hbase : TblVals s1 s2 (initTbl 0 s1.length s2.length, initTbl '-' s1.length s2.length)
      (fun _ _ => 0) (fun _ _ => '-') := by
    refine ⟨shaped_initTbl _ _ _, shaped_initTbl _ _ _, ?_⟩
    intro i j hi hj
    exact ⟨tget_initTbl _ hi hj _, tget_initTbl _ hi hj _⟩
  have h := hbase.write 0 0 (by omega) (by omega) 0 'I'
  exact h.congr (by intro i j hi hj; by_cases hij : i = 0 ∧ j = 0 <;> simp [hij])
    (by intro i j hi hj; rfl)

theorem row0_fold_vals (s1 s2 : List α) (k : Nat) (hk : k ≤ s2.length) :
    TblVals s1 s2
      ((List.range' 1 k).foldl (fun p n2 => (tset p.1 0 n2 n2, tset p.2 0 n2 'A'))
        (tblInit s1 s2))
      (fun i j => if i = 0 ∧ j ≤ k then j else 0)
      (fun i j => if i = 0 ∧ j ≤ k then (if j = 0 then 'I' else 'A') else '-') := by
  induction k with
  | zero =>
    refine (tblInit_vals s1 s2).congr ?_ ?_ <;> intro i j hi hj <;>
      split_ifs <;> first | rfl | omega
  | succ k ih =>
    have hrange : List.range' 1 (k + 1) = List.range' 1 k ++ [1 + k] := by
      rw [List.range'_concat]; simp
    rw [hrange, List.foldl_append, List.foldl_cons, List.foldl_nil]
    have h := (ih (by omega)).write 0 (1 + k) (by omega) (by omega) (1 + k) 'A'
    refine h.congr ?_ ?_ <;> intro i j hi hj <;>
      split_ifs <;> first | rfl | omega

theorem col0_fold_vals (s1 s2 : List α) (k : Nat) (hk : k ≤ s1.length) :
    TblVals s1 s2
      ((List.range' 1 k).foldl (fun p n1 => (tset p.1 n1 0 n1, tset p.2 n1 0 'R'))
        (tblRow0 s1 s2))
      (fun i j => if i = 0 then j else if j = 0 ∧ i ≤ k then i else 0)
      (fun i j => if i = 0 then (if j = 0 then 'I' else 'A')
        else if j = 0 ∧ i ≤ k then 'R' else '-') := by
  induction k with
  | zero =>
    have hrow : TblVals s1 s2 (tblRow0 s1 s2)
        (fun i j => if i = 0 ∧ j ≤ s2.length then j else 0)
        (fun i j => if i = 0 ∧ j ≤ s2.length then (if j = 0 then 'I' else 'A') else '-') :=
      row0_fold_vals s1 s2 s2.length le_rfl
    simp only [List.range', List.foldl_nil]
    refine hrow.congr ?_ ?_ <;> intro i j hi hj <;>
      split_ifs <;> first | rfl | omega
  | succ k ih =>
    have hrange : List.range' 1 (k + 1) = List.range' 1 k ++ [1 + k] := by
      rw [List.range'_concat]; simp
    rw [hrange, List.foldl_append, List.foldl_cons, List.foldl_nil]
    have h := (ih (by omega)).write (1 + k) 0 (by omega) (by omega) (1 + k) 'R'
    refine h.congr ?_ ?_ <;> intro i j hi hj <;>
      split_ifs <;> first | rfl | omega

theorem tblCol0_vals (s1 s2 : List α) :
    TblVals s1 s2 (tblCol0 s1 s2) (dVal s1 s2 0) (aVal s1 s2 0) := by
  have h := col0_fold_vals s1 s2 s1.length le_rfl
  refine h.congr ?_ ?_ <;> intro i j hi hj
  · unfold dVal
    by_cases hi0 : i = 0
    · subst hi0; simp [distF_row0]
    · by_cases hj0 : j = 0
      · subst hj0; simp [hi0, hi, distF_col0]
      · simp [hi0, hj0]
  · unfold aVal
    by_cases hi0 : i = 0
    · subst hi0; simp [actF_row0]
    · by_cases hj0 : j = 0
      · subst hj0; simp [hi0, hi, actF_col0]
      · simp [hi0, hj0]

theorem actF_succ_succ (s1 s2 : List α) (n1 n2 : Nat) :
    actF s1 s2 (n1 + 1) (n2 + 1) =
      if s1.getD n1 default = s2.getD n2 default then 'I'
      else if distF s1 s2 n1 (n2 + 1) > distF s1 s2 (n1 + 1) n2 then 'A'
      else 'R' := rfl

theorem dValR_step_congr (s1 s2 : List α) (k c i j : Nat) :
    (if i = k + 1 ∧ j = c + 1 then distF s1 s2 (k + 1) (c + 1) else dValR s1 s2 k c i j)
      = dValR s1 s2 k (c + 1) i j := by
  by_cases hA : i = k + 1 ∧ j = c + 1
  · obtain ⟨rfl, rfl⟩ := hA
    unfold dValR
    split_ifs <;> first | rfl | (exfalso; omega)
  · rw [if_neg hA]
    unfold dValR
    split_ifs <;> first | rfl | (exfalso; omega)

theorem aValR_step_congr (s1 s2 : List α) (k c i j : Nat) :
    (if i = k + 1 ∧ j = c + 1 then actF s1 s2 (k + 1) (c + 1) else aValR s1 s2 k c i j)
      = aValR s1 s2 k (c + 1) i j := by
  by_cases hA : i = k + 1 ∧ j = c + 1
  · obtain ⟨rfl, rfl⟩ := hA
    unfold aValR
    split_ifs <;> first | rfl | (exfalso; omega)
  · rw [if_neg hA]
    unfold aValR
    split_ifs <;> first | rfl | (exfalso; omega)

theorem fillCell_step (s1 s2 : List α) {k c : Nat} (hk : k < s1.length) (hc : c < s2.length)
    {p : Tbl Nat × Tbl Char}
    (h : TblVals s1 s2 p (dValR s1 s2 k c) (aValR s1 s2 k c)) :
    TblVals s1 s2 (fillCell s1 s2 p (k + 1) (c + 1)) (dValR s1 s2 k (c + 1))
      (aValR s1 s2 k (c + 1)) := by
  have hd1 : tget p.1 k (c + 1) 0 = distF s1 s2 k (c + 1) := by
    rw [(h.2.2 k (c + 1) (by omega) (by omega)).1]
    unfold dValR
    rw [if_pos (by omega)]
  have hd2 : tget p.1 (k + 1) c 0 = distF s1 s2 (k + 1) c := by
    rw [(h.2.2 (k + 1) c (by omega) (by omega)).1]
    unfold dValR
    rw [if_pos (by omega)]
  have hdiag : tget p.1 k c 0 = distF s1 s2 k c := by
    rw [(h.2.2 k c (by omega) (by omega)).1]
    unfold dValR
    rw [if_pos (by omega)]
  unfold fillCell
  simp only [Nat.add_sub_cancel]
  rw [hd1, hd2, hdiag]
  by_cases heq : s1.getD k default = s2.getD c default
  · rw [if_pos heq]
    have hv : distF s1 s2 (k + 1) (c + 1) = distF s1 s2 k c := by
      rw [distF]; rw [if_pos heq]
    have ha : actF s1 s2 (k + 1) (c + 1) = 'I' := by
      rw [actF_succ_succ, if_pos heq]
    rw [← hv, ← ha]
    exact (h.write (k + 1) (c + 1) (by omega) (by omega) _ _).congr
      (fun i j _ _ => dValR_step_congr s1 s2 k c i j)
      (fun i j _ _ => aValR_step_congr s1 s2 k c i j)
  · rw [if_neg heq]
    by_cases hgt : distF s1 s2 k (c + 1) > distF s1 s2 (k + 1) c
    · rw [if_pos hgt]
      have hv : distF s1 s2 (k + 1) (c + 1) = distF s1 s2 (k + 1) c + 1 := by
        rw [distF]; rw [if_neg heq]
        congr 1
        omega
      have ha : actF s1 s2 (k + 1) (c + 1) = 'A' := by
        rw [actF_succ_succ, if_neg heq, if_pos hgt]
      rw [← hv, ← ha]
      exact (h.write (k + 1) (c + 1) (by omega) (by omega) _ _).congr
        (fun i j _ _ => dValR_step_congr s1 s2 k c i j)
        (fun i j _ _ => aValR_step_congr s1 s2 k c i j)
    · rw [if_neg hgt]
      have hv : distF s1 s2 (k + 1) (c + 1) = distF s1 s2 k (c + 1) + 1 := by
        rw [distF]; rw [if_neg heq]
        congr 1
        omega
      have ha : actF s1 s2 (k + 1) (c + 1) = 'R' := by
        rw [actF_succ_succ, if_neg heq, if_neg hgt]
      rw [← hv, ← ha]
      exact (h.write (k + 1) (c + 1) (by omega) (by omega) _ _).congr
        (fun i j _ _ => dValR_step_congr s1 s2 k c i j)
        (fun i j _ _ => aValR_step_congr s1 s2 k c i j)

theorem fillRow_fold_vals (s1 s2 : List α) {k : Nat} (hk : k < s1.length) (c : Nat)
    (hc : c ≤ s2.length) {p : Tbl Nat × Tbl Char}
    (h : TblVals s1 s2 p (dValR s1 s2 k 0) (aValR s1 s2 k 0)) :
    TblVals s1 s2 ((List.range' 1 c).foldl (fun q n2 => fillCell s1 s2 q (k + 1) n2) p)
      (dValR s1 s2 k c) (aValR s1 s2 k c) := by
  induction c with
  | zero => simpa using h
  | succ c ih =>
    have hrange : List.range' 1 (c + 1) = List.range' 1 c ++ [1 + c] := by
      rw [List.range'_concat]; simp
    rw [hrange, List.foldl_append, List.foldl_cons, List.foldl_nil]
    have h1c : (1 : Nat) + c = c + 1 := by omega
    rw [h1c]
    exact fillCell_step s1 s2 hk (by omega) (ih (by omega))

theorem main_fold_vals (s1 s2 : List α) (k : Nat) (hk : k ≤ s1.length) :
    TblVals s1 s2 ((List.range' 1 k).foldl (fillRow s1 s2) (tblCol0 s1 s2))
      (dVal s1 s2 k) (aVal s1 s2 k) := by
  induction k with
  | zero => simpa using tblCol0_vals s1 s2
  | succ k ih =>
    have hrange : List.range' 1 (k + 1) = List.range' 1 k ++ [1 + k] := by
      rw [List.range'_concat]; simp
    rw [hrange, List.foldl_append, List.foldl_cons, List.foldl_nil]
    unfold fillRow
    have h1k : (1 : Nat) + k = k + 1 := by omega
    rw [h1k]
    have hstart : TblVals s1 s2 ((List.range' 1 k).foldl (fillRow s1 s2) (tblCol0 s1 s2))
        (dValR s1 s2 k 0) (aValR s1 s2 k 0) := by
      refine (ih (by omega)).congr ?_ ?_ <;> intro i j hi hj
      · unfold dVal dValR
        split_ifs <;> first | rfl | (exfalso; omega)
      · unfold aVal aValR
        split_ifs <;> first | rfl | (exfalso; omega)
    have hrow := fillRow_fold_vals s1 s2 (by omega) s2.length le_rfl hstart
    refine hrow.congr ?_ ?_ <;> intro i j hi hj
    · unfold dVal dValR
      split_ifs <;> first | rfl | (exfalso; omega)
    · unfold aVal aValR
      split_ifs <;> first | rfl | (exfalso; omega)

theorem fillTables_vals (s1 s2 : List α) :
    TblVals s1 s2 (fillTables s1 s2) (distF s1 s2) (actF s1 s2) := by
  have h := main_fold_vals s1 s2 s1.length le_rfl
  refine h.congr ?_ ?_ <;> intro i j hi hj
  · unfold dVal
    rw [if_pos (by omega)]
  · unfold aVal
    rw [if_pos (by omega)]

theorem btF_zero_zero (s1 s2 : List α) : btF s1 s2 0 0 = [] := by
  rw [btF]

theorem btF_zero_succ (s1 s2 : List α) (j : Nat) :
    btF s1 s2 0 (j + 1) = ('A', j, s2.getD j default) :: btF s1 s2 0 j := by
  rw [btF]

theorem btF_succ_zero (s1 s2 : List α) (i : Nat) :
    btF s1 s2 (i + 1) 0 = ('R', i, s1.getD i default) :: btF s1 s2 i 0 := by
  rw [btF]

theorem btF_succ_succ (s1 s2 : List α) (i j : Nat) :
    btF s1 s2 (i + 1) (j + 1) =
      if s1.getD i default = s2.getD j default then btF s1 s2 i j
      else if distF s1 s2 i (j + 1) > distF s1 s2 (i + 1) j then
        ('A', j, s2.getD j default) :: btF s1 s2 (i + 1) j
      else ('R', i, s1.getD i default) :: btF s1 s2 i (j + 1) := by
  rw [btF]

theorem btFuelT_succ (s1 s2 : List α) (acts : Tbl Char) (fuel n1 n2 : Nat)
    (h : ¬ (n1 = 0 ∧ n2 = 0)) :
    btFuelT s1 s2 acts (fuel + 1) n1 n2 =
      if tget acts n1 n2 '-' = 'A' then
        match btFuelT s1 s2 acts fuel n1 (n2 - 1) with
        | .ok l => .ok (('A', n2 - 1, s2.getD (n2 - 1) default) :: l)
        | r => r
      else if tget acts n1 n2 '-' = 'R' then
        match btFuelT s1 s2 acts fuel (n1 - 1) n2 with
        | .ok l => .ok (('R', n1 - 1, s1.getD (n1 - 1) default) :: l)
        | r => r
      else if tget acts n1 n2 '-' = 'I' then btFuelT s1 s2 acts fuel (n1 - 1) (n2 - 1)
      else .unreachableHit := by
  rw [btFuelT, if_neg h]

theorem btFuelT_complete (s1 s2 : List α) :
    ∀ fuel n1 n2, n1 ≤ s1.length → n2 ≤ s2.length → n1 + n2 ≤ fuel →
      btFuelT s1 s2 (fillTables s1 s2).2 fuel n1 n2 = .ok (btF s1 s2 n1 n2) := by
  intro fuel
  induction fuel with
  | zero =>
    intro n1 n2 h1 h2 h3
    have h00 : n1 = 0 ∧ n2 = 0 := by omega
    obtain ⟨rfl, rfl⟩ := h00
    rw [btFuelT, btF_zero_zero]
    rfl
  | succ fuel ih =>
    intro n1 n2 h1 h2 h3
    have hact := ((fillTables_vals s1 s2).2.2 n1 n2 h1 h2).2
    cases n1 with
    | zero =>
      cases n2 with
      | zero =>
        rw [btFuelT, btF_zero_zero]
        rfl
      | succ j =>
        rw [btFuelT_succ s1 s2 _ fuel 0 (j + 1) (by omega), hact]
        simp only [Nat.add_sub_cancel]
        have hA : actF s1 s2 0 (j + 1) = 'A' := rfl
        rw [hA, if_pos rfl, ih 0 j (by omega) (by omega) (by omega), btF_zero_succ]
    | succ i =>
      cases n2 with
      | zero =>
        rw [btFuelT_succ s1 s2 _ fuel (i + 1) 0 (by omega), hact]
        simp only [Nat.add_sub_cancel]
        have hR : actF s1 s2 (i + 1) 0 = 'R' := rfl
        rw [hR, if_neg (by decide), if_pos rfl, ih i 0 (by omega) (by omega) (by omega),
          btF_succ_zero]
      | succ j =>
        rw [btFuelT_succ s1 s2 _ fuel (i + 1) (j + 1) (by omega), hact]
        simp only [Nat.add_sub_cancel]
        rw [actF_succ_succ, btF_succ_succ]
        by_cases heq : s1.getD i default = s2.getD j default
        · rw [if_pos heq, if_pos heq, if_neg (by decide), if_neg (by decide), if_pos rfl]
          exact ih i j (by omega) (by omega) (by omega)
        · rw [if_neg heq, if_neg heq]
          by_cases hgt : distF s1 s2 i (j + 1) > distF s1 s2 (i + 1) j
          · rw [if_pos hgt, if_pos hgt, if_pos rfl,
              ih (i + 1) j (by omega) (by omega) (by omega)]
          · rw [if_neg hgt, if_neg hgt, if_neg (by decide), if_pos rfl,
              ih i (j + 1) (by omega) (by omega) (by omega)]

theorem btFuelT_no_unreachable (s1 s2 : List α) :
    ∀ fuel n1 n2, n1 ≤ s1.length → n2 ≤ s2.length →
      btFuelT s1 s2 (fillTables s1 s2).2 fuel n1 n2 ≠ .unreachableHit := by
  intro fuel
  induction fuel with
  | zero =>
    intro n1 n2 h1 h2
    rw [btFuelT]
    by_cases h00 : n1 = 0 ∧ n2 = 0
    · rw [if_pos h00]
      intro hc
      exact BtRes.noConfusion hc
    · rw [if_neg h00]
      intro hc
      exact BtRes.noConfusion hc
  | succ fuel ih =>
    intro n1 n2 h1 h2
    by_cases h00 : n1 = 0 ∧ n2 = 0
    · rw [btFuelT, if_pos h00]
      intro hc
      exact BtRes.noConfusion hc
    · rw [btFuelT_succ s1 s2 _ fuel n1 n2 h00]
      have hact := ((fillTables_vals s1 s2).2.2 n1 n2 h1 h2).2
      rw [hact]
      have hcases : actF s1 s2 n1 n2 = 'I' ∨ actF s1 s2 n1 n2 = 'A' ∨ actF s1 s2 n1 n2 = 'R' := by
        cases n1 with
        | zero => cases n2 with
          | zero => left; rfl
          | succ j => right; left; rfl
        | succ i => cases n2 with
          | zero => right; right; rfl
          | succ j =>
            rw [actF_succ_succ]
            split_ifs
            · left; rfl
            · right; left; rfl
            · right; right; rfl
      rcases hcases with hc | hc | hc <;> rw [hc]
      · rw [if_neg (by decide), if_neg (by decide), if_pos rfl]
        exact ih (n1 - 1) (n2 - 1) (by omega) (by omega)
      · rw [if_pos rfl]
        cases hres : btFuelT s1 s2 (fillTables s1 s2).2 fuel n1 (n2 - 1) with
        | ok l => intro hcon; exact BtRes.noConfusion hcon
        | outOfFuel => intro hcon; exact BtRes.noConfusion hcon
        | unreachableHit => exact absurd hres (ih n1 (n2 - 1) (by omega) (by omega))
      · rw [if_neg (by decide), if_pos rfl]
        cases hres : btFuelT s1 s2 (fillTables s1 s2).2 fuel (n1 - 1) n2 with
        | ok l => intro hcon; exact BtRes.noConfusion hcon
        | outOfFuel => intro hcon; exact BtRes.noConfusion hcon
        | unreachableHit => exact absurd hres (ih (n1 - 1) n2 (by omega) (by omega))

theorem edit_distance_eq_btF (s1 s2 : List α) :
    edit_distance s1 s2 = (btF s1 s2 s1.length s2.length).reverse := by
  unfold edit_distance
  rw [btFuelT_complete s1 s2 _ _ _ le_rfl le_rfl le_rfl]

theorem length_btF (s1 s2 : List α) (n : Nat) :
    ∀ n1 n2, n1 + n2 ≤ n → (btF s1 s2 n1 n2).length = distF s1 s2 n1 n2 := by
  induction n with
  | zero =>
    intro n1 n2 h
    have h00 : n1 = 0 ∧ n2 = 0 := by omega
    obtain ⟨rfl, rfl⟩ := h00
    rw [btF_zero_zero, List.length_nil, distF]
  | succ n ihn =>
    intro n1 n2 h
    cases n1 with
    | zero =>
      cases n2 with
      | zero => rw [btF_zero_zero, List.length_nil, distF]
      | succ j =>
        rw [btF_zero_succ, List.length_cons, ihn 0 j (by omega), distF_row0, distF_row0]
    | succ i =>
      cases n2 with
      | zero =>
        rw [btF_succ_zero, List.length_cons, ihn i 0 (by omega), distF_col0, distF_col0]
      | succ j =>
        rw [btF_succ_succ]
        by_cases heq : s1.getD i default = s2.getD j default
        · rw [if_pos heq, ihn i j (by omega)]
          conv_rhs => rw [distF]
          rw [if_pos heq]
        · rw [if_neg heq]
          conv_rhs => rw [distF]
          rw [if_neg heq]
          by_cases hgt : distF s1 s2 i (j + 1) > distF s1 s2 (i + 1) j
          · rw [if_pos hgt, List.length_cons, ihn (i + 1) j (by omega)]
            omega
          · rw [if_neg hgt, List.length_cons, ihn i (j + 1) (by omega)]
            omega

theorem lev_nil_left (ys : List α) : lev ([] : List α) ys = ys.length := by
  rw [lev]

theorem lev_cons_nil (x : α) (xs : List α) : lev (x :: xs) [] = xs.length + 1 := by
  rw [lev]

theorem lev_cons_cons (x y : α) (xs ys : List α) :
    lev (x :: xs) (y :: ys) =
      if x = y then lev xs ys
      else 1 + min (lev xs (y :: ys)) (lev (x :: xs) ys) := by
  rw [lev]

theorem lev_nil_right (xs : List α) : lev xs ([] : List α) = xs.length := by
  cases xs with
  | nil => rw [lev_nil_left]
  | cons x xs => rw [lev_cons_nil, List.length_cons]

theorem lev_singleton_left (x : α) (ws : List α) :
    lev [x] ws = if x ∈ ws then ws.length - 1 else ws.length + 1 := by
  induction ws with
  | nil => simp [lev_nil_right]
  | cons w ws ih =>
    rw [lev_cons_cons]
    by_cases hxw : x = w
    · subst hxw
      rw [if_pos rfl, lev_nil_left, if_pos (List.mem_cons_self _ _)]
      rfl
    · have hmc : (x ∈ w :: ws) ↔ (x ∈ ws) := by
        constructor
        · intro hc
          rcases List.mem_cons.mp hc with hc | hc
          · exact absurd hc hxw
          · exact hc
        · exact fun hc => List.mem_cons_of_mem _ hc
      rw [if_neg hxw, lev_nil_left, ih]
      by_cases hmem : x ∈ ws
      · have hlen : 1 ≤ ws.length := List.length_pos.mpr (List.ne_nil_of_mem hmem)
        rw [if_pos hmem, if_pos (hmc.mpr hmem), List.length_cons]
        omega
      · rw [if_neg hmem, if_neg (fun hc => hmem (hmc.mp hc)), List.length_cons]
        omega

theorem lev_singleton_right (y : α) (ws : List α) :
    lev ws [y] = if y ∈ ws then ws.length - 1 else ws.length + 1 := by
  induction ws with
  | nil => simp [lev_nil_left]
  | cons w ws ih =>
    rw [lev_cons_cons]
    by_cases hwy : w = y
    · subst hwy
      rw [if_pos rfl, lev_nil_right, if_pos (List.mem_cons_self _ _)]
      rfl
    · have hmc : (y ∈ w :: ws) ↔ (y ∈ ws) := by
        constructor
        · intro hc
          rcases List.mem_cons.mp hc with hc | hc
          · exact absurd hc.symm hwy
          · exact hc
        · exact fun hc => List.mem_cons_of_mem _ hc
      rw [if_neg hwy, lev_cons_nil, ih]
      by_cases hmem : y ∈ ws
      · have hlen : 1 ≤ ws.length := List.length_pos.mpr (List.ne_nil_of_mem hmem)
        rw [if_pos hmem, if_pos (hmc.mpr hmem), List.length_cons]
        omega
      · rw [if_neg hmem, if_neg (fun hc => hmem (hmc.mp hc)), List.length_cons]
        omega

theorem lev_snoc (x y : α) (n : Nat) :
    ∀ xs ys : List α, xs.length + ys.length ≤ n →
      lev (xs ++ [x]) (ys ++ [y]) =
        if x = y then lev xs ys
        else 1 + min (lev (xs ++ [x]) ys) (lev xs (ys ++ [y])) := by
  induction n with
  | zero =>
    intro xs ys h
    have hx : xs = [] := by
      cases xs with
      | nil => rfl
      | cons a as => exfalso; simp only [List.length_cons] at h; omega
    have hy : ys = [] := by
      cases ys with
      | nil => rfl
      | cons a as => exfalso; simp only [List.length_cons] at h; omega
    subst hx; subst hy
    simp only [List.nil_append, lev_cons_cons, lev_nil_left, lev_nil_right, lev_cons_nil]
    by_cases hxy : x = y <;> simp [hxy]
  | succ n ihn =>
    intro xs ys h
    cases xs with
    | nil =>
      cases ys with
      | nil =>
        simp only [List.nil_append, lev_cons_cons, lev_nil_left, lev_nil_right, lev_cons_nil]
        by_cases hxy : x = y <;> simp [hxy]
      | cons b bs =>
        simp only [List.nil_append, List.cons_append]
        rw [lev_singleton_left, lev_singleton_left, lev_nil_left, lev_nil_left]
        have hxmem : (x ∈ b :: (bs ++ [y])) ↔ (x ∈ b :: bs ∨ x = y) := by
          simp [List.mem_cons, List.mem_append, or_assoc]
        by_cases hxy : x = y
        · subst hxy
          rw [if_pos (hxmem.mpr (Or.inr rfl)), if_pos rfl]
          simp only [List.length_cons, List.length_append, List.length_nil]
          omega
        · rw [if_neg hxy]
          by_cases hmem : x ∈ b :: bs
          · rw [if_pos (hxmem.mpr (Or.inl hmem)), if_pos hmem]
            have hlen : 1 ≤ (b :: bs).length := by simp
            simp only [List.length_cons, List.length_append, List.length_nil] at hlen ⊢
            omega
          · rw [if_neg (fun hc => (hxmem.mp hc).elim hmem hxy), if_neg hmem]
            simp only [List.length_cons, List.length_append, List.length_nil]
            omega
    | cons a as =>
      cases ys with
      | nil =>
        simp only [List.nil_append, List.cons_append]
        rw [lev_singleton_right, lev_singleton_right, lev_nil_right, lev_cons_nil]
        have hymem : (y ∈ a :: (as ++ [x])) ↔ (y ∈ a :: as ∨ y = x) := by
          simp [List.mem_cons, List.mem_append, or_assoc]
        by_cases hxy : x = y
        · subst hxy
          rw [if_pos (hymem.mpr (Or.inr rfl)), if_pos rfl]
          simp only [List.length_cons, List.length_append, List.length_nil]
          omega
        · rw [if_neg hxy]
          by_cases hmem : y ∈ a :: as
          · rw [if_pos (hymem.mpr (Or.inl hmem)), if_pos hmem]
            have hlen : 1 ≤ (a :: as).length := by simp
            simp only [List.length_cons, List.length_append, List.length_nil] at hlen ⊢
            omega
          · rw [if_neg (fun hc => (hymem.mp hc).elim hmem (fun he => hxy he.symm)),
              if_neg hmem]
            simp only [List.length_cons, List.length_append, List.length_nil]
            omega
      | cons b bs =>
        have hl1 : as.length + bs.length ≤ n := by
          simp only [List.length_cons] at h; omega
        have hl2 : as.length + (b :: bs).length ≤ n := by
          simp only [List.length_cons] at h ⊢; omega
        have hl3 : (a :: as).length + bs.length ≤ n := by
          simp only [List.length_cons] at h ⊢; omega
        simp only [List.cons_append]
        by_cases hxy : x = y
        · rw [if_pos hxy]
          rw [lev_cons_cons a b, lev_cons_cons a b]
          by_cases hab : a = b
          · rw [if_pos hab, if_pos hab, ihn as bs hl1, if_pos hxy]
          · rw [if_neg hab, if_neg hab]
            have hih1 := ihn as (b :: bs) hl2
            have hih2 := ihn (a :: as) bs hl3
            simp only [List.cons_append] at hih1 hih2
            rw [hih1, hih2, if_pos hxy, if_pos hxy]
        · rw [if_neg hxy]
          rw [lev_cons_cons a b]
          by_cases hab : a = b
          · rw [if_pos hab, ihn as bs hl1, if_neg hxy]
            rw [lev_cons_cons a b, if_pos hab, lev_cons_cons a b, if_pos hab]
          · rw [if_neg hab]
            have hih1 := ihn as (b :: bs) hl2
            have hih2 := ihn (a :: as) bs hl3
            simp only [List.cons_append] at hih1 hih2
            rw [hih1, hih2, if_neg hxy, if_neg hxy]
            rw [lev_cons_cons a b, if_neg hab, lev_cons_cons a b, if_neg hab]
            omega

theorem lev_reverse_reverse (n : Nat) :
    ∀ xs ys : List α, xs.length + ys.length ≤ n →
      lev xs.reverse ys.reverse = lev xs ys := by
  induction n with
  | zero =>
    intro xs ys h
    have hx : xs = [] := by
      cases xs with
      | nil => rfl
      | cons a as => exfalso; simp only [List.length_cons] at h; omega
    have hy : ys = [] := by
      cases ys with
      | nil => rfl
      | cons a as => exfalso; simp only [List.length_cons] at h; omega
    subst hx; subst hy
    rfl
  | succ n ihn =>
    intro xs ys h
    cases xs with
    | nil =>
      rw [List.reverse_nil, lev_nil_left, lev_nil_left, List.length_reverse]
    | cons a as =>
      cases ys with
      | nil =>
        rw [List.reverse_nil, lev_nil_right, lev_nil_right, List.length_reverse]
      | cons b bs =>
        have hlsum : as.reverse.length + bs.reverse.length ≤ n := by
          simp only [List.length_reverse]
          simp only [List.length_cons] at h
          omega
        have hr1 : as.length + bs.length ≤ n := by
          simp only [List.length_cons] at h; omega
        have hr2 : (a :: as).length + bs.length ≤ n := by
          simp only [List.length_cons] at h ⊢; omega
        have hr3 : as.length + (b :: bs).length ≤ n := by
          simp only [List.length_cons] at h ⊢; omega
        rw [List.reverse_cons, List.reverse_cons, lev_snoc a b n as.reverse bs.reverse hlsum]
        rw [← List.reverse_cons a as, ← List.reverse_cons b bs]
        rw [ihn as bs hr1, ihn (a :: as) bs hr2, ihn as (b :: bs) hr3]
        rw [lev_cons_cons]
        by_cases hab : a = b
        · rw [if_pos hab, if_pos hab]
        · rw [if_neg hab, if_neg hab]
          omega

theorem take_succ_getD (l : List α) {i : Nat} (h : i < l.length) :
    l.take (i + 1) = l.take i ++ [l.getD i default] := by
  rw [List.take_succ, List.getElem?_eq_getElem h]
  rw [List.getD_eq_getElem?_getD, List.getElem?_eq_getElem h, Option.getD_some]
  rfl

theorem distF_eq_lev (s1 s2 : List α) (n : Nat) :
    ∀ n1 n2, n1 ≤ s1.length → n2 ≤ s2.length → n1 + n2 ≤ n →
      distF s1 s2 n1 n2 = lev (s1.take n1).reverse (s2.take n2).reverse := by
  induction n with
  | zero =>
    intro n1 n2 h1 h2 h
    have h00 : n1 = 0 ∧ n2 = 0 := by omega
    obtain ⟨rfl, rfl⟩ := h00
    rw [distF]
    simp [lev_nil_left]
  | succ n ihn =>
    intro n1 n2 h1 h2 h
    cases n1 with
    | zero =>
      cases n2 with
      | zero =>
        rw [distF]
        simp [lev_nil_left]
      | succ j =>
        rw [distF_row0]
        simp only [List.take_zero, List.reverse_nil, lev_nil_left, List.length_reverse,
          List.length_take]
        omega
    | succ i =>
      cases n2 with
      | zero =>
        rw [distF_col0]
        simp only [List.take_zero, List.reverse_nil, lev_nil_right, List.length_reverse,
          List.length_take]
        omega
      | succ j =>
        have hrev1 : (s1.take (i + 1)).reverse = s1.getD i default :: (s1.take i).reverse := by
          rw [take_succ_getD s1 (by omega), List.reverse_append]
          rfl
        have hrev2 : (s2.take (j + 1)).reverse = s2.getD j default :: (s2.take j).reverse := by
          rw [take_succ_getD s2 (by omega), List.reverse_append]
          rfl
        rw [hrev1, hrev2, lev_cons_cons, distF]
        by_cases heq : s1.getD i default = s2.getD j default
        · rw [if_pos heq, if_pos heq]
          exact ihn i j (by omega) (by omega) (by omega)
        · rw [if_neg heq, if_neg heq]
          rw [← hrev1, ← hrev2]
          rw [← ihn i (j + 1) (by omega) (by omega) (by omega),
            ← ihn (i + 1) j (by omega) (by omega) (by omega)]
          omega

theorem edit_distance_length_eq_lev (s1 s2 : List α) :
    (edit_distance s1 s2).length = lev s1 s2 := by
  rw [edit_distance_eq_btF, List.length_reverse,
    length_btF s1 s2 (s1.length + s2.length) _ _ le_rfl,
    distF_eq_lev s1 s2 (s1.length + s2.length) _ _ le_rfl le_rfl le_rfl,
    List.take_length, List.take_length,
    lev_reverse_reverse (s1.length + s2.length) _ _ le_rfl]

theorem btF_diag (A : List α) (k : Nat) : btF A A k k = [] := by
  induction k with
  | zero => rw [btF_zero_zero]
  | succ k ih => rw [btF_succ_succ, if_pos rfl, ih]

theorem applyLoop_no_badAction (ops : List (Op α))
    (h : ∀ op ∈ ops, op.1 = 'A' ∨ op.1 = 'R') :
    ∀ lines : List α, applyLoop lines ops ≠ .badAction := by
  induction ops with
  | nil =>
    intro lines
    rw [applyLoop]
    intro hc
    exact ApplyResult.noConfusion hc
  | cons op rest ih =>
    intro lines
    obtain ⟨a, row, line⟩ := op
    have ha : a = 'A' ∨ a = 'R' := h _ (List.mem_cons_self _ _)
    have hrest : ∀ op ∈ rest, op.1 = 'A' ∨ op.1 = 'R' :=
      fun op hop => h op (List.mem_cons_of_mem _ hop)
    rw [applyLoop]
    rcases ha with ha | ha
    · rw [if_pos ha]
      exact ih hrest _
    · by_cases haa : a = 'A'
      · rw [if_pos haa]
        exact ih hrest _
      · rw [if_neg haa, if_pos ha]
        cases pyPop lines row with
        | some l => exact ih hrest _
        | none =>
          intro hc
          exact ApplyResult.noConfusion hc

theorem matchPatchLine_tag {l : PyStr} {op : Op PyStr} (h : matchPatchLine l = some op) :
    op.1 = 'A' ∨ op.1 = 'R' := by
  cases l with
  | nil => exact Option.noConfusion h
  | cons t rest =>
    cases rest with
    | nil => exact Option.noConfusion h
    | cons sp rest1 =>
      simp only [matchPatchLine] at h
      by_cases hcond : sp = ' ' ∧ (t = 'A' ∨ t = 'R')
          ∧ (rest1.takeWhile Char.isDigit).isEmpty = false
          ∧ (rest1.dropWhile Char.isDigit).head? = some ' '
      · rw [if_pos hcond] at h
        cases Option.some.inj h
        exact hcond.2.1
      · rw [if_neg hcond] at h
        exact Option.noConfusion h

theorem decodeAux_ops_tags (ls : List PyStr) :
    ∀ row, ∀ op ∈ (decodeAux row ls).1, op.1 = 'A' ∨ op.1 = 'R' := by
  induction ls with
  | nil =>
    intro row op hop
    rw [decodeAux] at hop
    exact absurd hop (List.not_mem_nil _)
  | cons l rest ih =>
    intro row op hop
    rw [decodeAux] at hop
    by_cases hlen : l.length = 0
    · rw [if_pos hlen] at hop
      exact ih _ op hop
    · rw [if_neg hlen] at hop
      cases hm : matchPatchLine l with
      | none =>
        rw [hm] at hop
        exact ih _ op hop
      | some op0 =>
        rw [hm] at hop
        rcases List.mem_cons.mp hop with hop | hop
        · subst hop
          exact matchPatchLine_tag hm
        · exact ih _ op hop

theorem decodeAux_errs (ls : List PyStr) :
    ∀ row, (decodeAux row ls).2 =
      ((ls.enumFrom row).filter
        (fun p => !p.2.isEmpty && (matchPatchLine p.2).isNone)).map
        (fun p => (p.1 + 1, p.2)) := by
  induction ls with
  | nil => intro row; rfl
  | cons l rest ih =>
    intro row
    rw [decodeAux, List.enumFrom_cons]
    by_cases hlen : l.length = 0
    · have hempty : l.isEmpty = true := by
        rw [List.isEmpty_eq_true]
        exact List.length_eq_zero.mp hlen
      rw [if_pos hlen, List.filter_cons_of_neg (by simp [hempty])]
      exact ih (row + 1)
    · have hempty : l.isEmpty = false := by
        rw [List.isEmpty_eq_false]
        intro hc
        exact hlen (by rw [hc]; rfl)
      rw [if_neg hlen]
      cases hm : matchPatchLine l with
      | none =>
        rw [List.filter_cons_of_pos (by simp [hempty, hm]), List.map_cons]
        exact congrArg _ (ih (row + 1))
      | some op0 =>
        rw [List.filter_cons_of_neg (by simp [hempty, hm])]
        exact ih (row + 1)

theorem splitLinesAux_line (rest : List Char) (l : List Char) :
    ∀ acc, '\n' ∉ l →
      splitLinesAux acc (l ++ '\n' :: rest)
        = ((acc.reverse ++ l) ++ ['\n']) :: splitLinesAux [] rest := by
  induction l with
  | nil =>
    intro acc _
    rw [List.nil_append, splitLinesAux, if_pos rfl, List.append_nil]
  | cons c l ih =>
    intro acc h
    rw [List.cons_append, splitLinesAux]
    have hc : ¬ (c = '\n') := fun hc => h (hc ▸ List.mem_cons_self _ _)
    rw [if_neg hc, ih (c :: acc) (fun hm => h (List.mem_cons_of_mem _ hm))]
    have : (c :: acc).reverse ++ l = acc.reverse ++ (c :: l) := by
      rw [List.reverse_cons, List.append_assoc]
      rfl
    rw [this]

theorem natDigitsF_congr : ∀ f g n, n < f → n < g → natDigitsF f n = natDigitsF g n := by
  intro f
  induction f with
  | zero =>
    intro g n hf
    omega
  | succ f ih =>
    intro g n hf hg
    cases g with
    | zero => omega
    | succ g =>
      rw [natDigitsF, natDigitsF]
      by_cases h10 : n < 10
      · rw [if_pos h10, if_pos h10]
      · rw [if_neg h10, if_neg h10, ih g (n / 10) (by omega) (by omega)]

theorem natDigits_unfold (n : Nat) :
    natDigits n = if n < 10 then [digitChar n]
      else natDigits (n / 10) ++ [digitChar (n % 10)] := by
  unfold natDigits
  rw [natDigitsF]
  by_cases h10 : n < 10
  · rw [if_pos h10, if_pos h10]
  · rw [if_neg h10, if_neg h10, natDigitsF_congr n (n / 10 + 1) (n / 10) (by omega) (by omega)]

theorem digitVal_digitChar {d : Nat} (h : d < 10) : digitVal (digitChar d) = d := by
  interval_cases d <;> decide

theorem isDigit_digitChar {d : Nat} (h : d < 10) : (digitChar d).isDigit = true := by
  interval_cases d <;> decide

theorem ne_nl_digitChar {d : Nat} (h : d < 10) : digitChar d ≠ '\n' := by
  interval_cases d <;> decide

theorem natDigits_all_digits (n : Nat) : ∀ c ∈ natDigits n, c.isDigit = true := by
  induction n using Nat.strong_induction_on with
  | _ n ih =>
    rw [natDigits_unfold]
    by_cases h10 : n < 10
    · rw [if_pos h10]
      intro c hc
      rw [List.mem_singleton] at hc
      subst hc
      exact isDigit_digitChar h10
    · rw [if_neg h10]
      intro c hc
      rcases List.mem_append.mp hc with hc | hc
      · exact ih (n / 10) (by omega) c hc
      · rw [List.mem_singleton] at hc
        subst hc
        exact isDigit_digitChar (by omega)

theorem natDigits_ne_nil (n : Nat) : natDigits n ≠ [] := by
  rw [natDigits_unfold]
  by_cases h10 : n < 10
  · rw [if_pos h10]
    simp
  · rw [if_neg h10]
    simp

theorem natOfDigits_append_singleton (ds : List Char) (c : Char) :
    natOfDigits (ds ++ [c]) = 10 * natOfDigits ds + digitVal c := by
  unfold natOfDigits
  rw [List.foldl_append]
  rfl

theorem natOfDigits_natDigits (n : Nat) : natOfDigits (natDigits n) = n := by
  induction n using Nat.strong_induction_on with
  | _ n ih =>
    rw [natDigits_unfold]
    by_cases h10 : n < 10
    · rw [if_pos h10]
      unfold natOfDigits
      rw [List.foldl_cons, List.foldl_nil]
      rw [Nat.mul_zero, Nat.zero_add, digitVal_digitChar h10]
    · rw [if_neg h10, natOfDigits_append_singleton, ih (n / 10) (by omega),
        digitVal_digitChar (Nat.mod_lt n (by omega))]
      omega

theorem matchPatchLine_encodeOp (op : Op PyStr) (htag : op.1 = 'A' ∨ op.1 = 'R')
    (hnl : '\n' ∉ op.2.2) : matchPatchLine (encodeOp op) = some op := by
  obtain ⟨t, n, content⟩ := op
  have htag' : t = 'A' ∨ t = 'R' := htag
  have hnl' : '\n' ∉ content := hnl
  have hdig : ∀ a ∈ natDigits n, Char.isDigit a = true := natDigits_all_digits n
  have htake : (natDigits n ++ ' ' :: (content ++ ['\n'])).takeWhile Char.isDigit
      = natDigits n := by
    rw [List.takeWhile_append_of_pos hdig, List.takeWhile_cons_of_neg (by decide),
      List.append_nil]
  have hdrop : (natDigits n ++ ' ' :: (content ++ ['\n'])).dropWhile Char.isDigit
      = ' ' :: (content ++ ['\n']) := by
    rw [List.dropWhile_append_of_pos hdig, List.dropWhile_cons_of_neg (by decide)]
  have hctake : (content ++ ['\n']).takeWhile (fun c => c != '\n') = content := by
    rw [List.takeWhile_append_of_pos
        (fun a ha => by
          rw [bne_iff_ne]
          exact fun hc => hnl' (hc ▸ ha)),
      List.takeWhile_cons_of_neg (by decide), List.append_nil]
  have hEmpty : ((natDigits n ++ ' ' :: (content ++ ['\n'])).takeWhile Char.isDigit).isEmpty
      = false := by
    rw [htake]
    exact List.isEmpty_eq_false.mpr (natDigits_ne_nil n)
  have hHead : ((natDigits n ++ ' ' :: (content ++ ['\n'])).dropWhile Char.isDigit).head?
      = some ' ' := by
    rw [hdrop]
    rfl
  unfold encodeOp
  rw [matchPatchLine]
  rw [if_pos ⟨rfl, htag', hEmpty, hHead⟩, htake, hdrop, natOfDigits_natDigits]
  simp only [List.tail_cons]
  rw [hctake]

theorem encodeOp_length_ne_zero (op : Op PyStr) : ¬ (encodeOp op).length = 0 := by
  obtain ⟨t, n, content⟩ := op
  simp [encodeOp]

theorem encodeOp_split (op : Op PyStr) (htag : op.1 = 'A' ∨ op.1 = 'R')
    (hnl : '\n' ∉ op.2.2) :
    encodeOp op = (op.1 :: ' ' :: (natDigits op.2.1 ++ ' ' :: op.2.2)) ++ ['\n']
      ∧ '\n' ∉ (op.1 :: ' ' :: (natDigits op.2.1 ++ ' ' :: op.2.2)) := by
  obtain ⟨t, n, content⟩ := op
  have htag' : t = 'A' ∨ t = 'R' := htag
  have hnl' : '\n' ∉ content := hnl
  constructor
  · simp [encodeOp, List.append_assoc]
  · intro hmem
    rcases List.mem_cons.mp hmem with hc | hmem
    · rcases htag' with h | h <;> rw [h] at hc
      · have hc2 : '\n' = 'A' := hc
        exact absurd hc2 (by decide)
      · have hc2 : '\n' = 'R' := hc
        exact absurd hc2 (by decide)
    rcases List.mem_cons.mp hmem with hc | hmem
    · exact absurd hc (by decide)
    rcases List.mem_append.mp hmem with hc | hmem
    · have := natDigits_all_digits n _ hc
      simp at this
    rcases List.mem_cons.mp hmem with hc | hmem
    · exact absurd hc (by decide)
    · exact hnl' hmem

theorem decode_encode (S : List (Op PyStr))
    (h : ∀ op ∈ S, (op.1 = 'A' ∨ op.1 = 'R') ∧ '\n' ∉ op.2.2) :
    ∀ row, decodeAux row (splitLines (encodeScript S)) = (S, []) := by
  induction S with
  | nil => intro row; rfl
  | cons op S ih =>
    intro row
    have hop := h op (List.mem_cons_self _ _)
    have hS : ∀ o ∈ S, (o.1 = 'A' ∨ o.1 = 'R') ∧ '\n' ∉ o.2.2 :=
      fun o ho => h o (List.mem_cons_of_mem _ ho)
    obtain ⟨hb1, hb2⟩ := encodeOp_split op hop.1 hop.2
    have henc : encodeScript (op :: S) = encodeOp op ++ encodeScript S := by
      simp [encodeScript]
    have hsplit : splitLines (encodeOp op ++ encodeScript S)
        = encodeOp op :: splitLines (encodeScript S) := by
      rw [hb1, List.append_assoc, List.singleton_append]
      unfold splitLines
      rw [splitLinesAux_line _ _ _ hb2, List.reverse_nil, List.nil_append, ← hb1]
    rw [henc, hsplit, decodeAux, if_neg (encodeOp_length_ne_zero op),
      matchPatchLine_encodeOp op hop.1 hop.2, ih hS (row + 1)]

/-- C1 (round-trip of diff and patch): evaluation of the program on the
scenario of the spec itself, sources foo, bar, baz and foo, baz, qux. The
engine produces the expected script of Remove 1 bar then Add 2 qux, but
replaying it in the reversed order used by PatchSubcommand.run inserts qux
before baz and then removes bar, yielding foo, qux, baz instead of the
target foo, baz, qux: the claimed round-trip identity fails on this input. -/
theorem claimC1_roundtrip_fails :
    edit_distance ["foo", "bar", "baz"] ["foo", "baz", "qux"]
        = [('R', 1, "bar"), ('A', 2, "qux")]
      ∧ applyPy ["foo", "bar", "baz"] [('R', 1, "bar"), ('A', 2, "qux")]
        = ApplyResult.ok ["foo", "qux", "baz"]
      ∧ (["foo", "qux", "baz"] : List String) ≠ ["foo", "baz", "qux"] := by
  refine ⟨by decide, by decide, by decide⟩

/-- C2 (minimality): the number of operations in the script returned by
edit_distance equals the insert/delete-only Levenshtein distance of the two
inputs, where lev is the independent structural recursion on lists. -/
theorem claimC2_minimality (s1 s2 : List String) :
    (edit_distance s1 s2).length = lev s1 s2 :=
  edit_distance_length_eq_lev s1 s2

/-- C3 (tie-break determinism): at every interior cell of the filled
tables whose two lines differ, the recorded action is A exactly when the
Add cost is strictly below the Remove cost, hence R whenever the two costs
tie; consequently edit_distance on x, y versus y, x is the one specific
two-operation script made of one Add and one Remove. -/
theorem claimC3_tiebreak :
    (∀ (s1 s2 : List String) (n1 n2 : Nat), n1 < s1.length → n2 < s2.length →
      s1.getD n1 default ≠ s2.getD n2 default →
      ((tget (fillTables s1 s2).1 n1 (n2 + 1) 0 = tget (fillTables s1 s2).1 (n1 + 1) n2 0 →
          tget (fillTables s1 s2).2 (n1 + 1) (n2 + 1) '-' = 'R')
        ∧ (tget (fillTables s1 s2).2 (n1 + 1) (n2 + 1) '-' = 'A'
            ↔ tget (fillTables s1 s2).1 (n1 + 1) n2 0 < tget (fillTables s1 s2).1 n1 (n2 + 1) 0)))
    ∧ edit_distance ["x", "y"] ["y", "x"] = [('A', 0, "y"), ('R', 1, "y")] := by
  constructor
  · intro s1 s2 n1 n2 h1 h2 hne
    have hd1 := ((fillTables_vals s1 s2).2.2 n1 (n2 + 1) (by omega) (by omega)).1
    have hd2 := ((fillTables_vals s1 s2).2.2 (n1 + 1) n2 (by omega) (by omega)).1
    have ha := ((fillTables_vals s1 s2).2.2 (n1 + 1) (n2 + 1) (by omega) (by omega)).2
    rw [hd1, hd2, ha, actF_succ_succ]
    refine ⟨fun heq => ?_, ?_, fun hlt => ?_⟩
    · rw [if_neg hne, if_neg (by omega)]
    · intro hA
      by_contra hlt
      rw [if_neg hne, if_neg (by omega)] at hA
      exact absurd hA (by decide)
    · rw [if_neg hne, if_pos (by omega)]
  · decide

/-- C3 witness: the tie at cell (1, 1) for sources x, y and y, x is
resolved to the Remove action. -/
theorem claimC3_tiebreak_witness :
    tget (fillTables ["x", "y"] ["y", "x"]).2 1 1 '-' = 'R' :=
  (claimC3_tiebreak.1 ["x", "y"] ["y", "x"] 0 0 (by decide) (by decide) (by decide)).1
    (by decide)

/-- C4 (apply-time index failure): evaluation of the apply loop at
out-of-range indices. An Add whose index exceeds the current length is
silently clamped by the Python list.insert semantics, so inserting b into
the empty list at index 1 appends it and the run reports success, contrary
to the claimed unrecoverable error; only an out-of-range Remove raises. -/
theorem claimC4_add_oob_clamps :
    applyPy ([] : List String) [('A', 1, "b")] = ApplyResult.ok ["b"]
      ∧ applyPy ([] : List String) [('R', 0, "x")] = ApplyResult.idxErr := by
  refine ⟨by decide, by decide⟩

/-- C5 (collect-then-fail decoding): the errors collected by the decode
loop are exactly the nonempty lines rejected by the patch grammar, each
carrying its one-based line number; the run fails precisely when at least
one such line exists, and in that case it returns the whole error list
without applying any operation to the source. -/
theorem claimC5_collect_then_fail (text : PyStr) (src : List PyStr) :
    (decodeAux 0 (splitLines text)).2
      = (((splitLines text).enumFrom 0).filter
          (fun p => !p.2.isEmpty && (matchPatchLine p.2).isNone)).map
          (fun p => (p.1 + 1, p.2))
    ∧ ((∃ e, patchRun src text = Except.error e) ↔ (decodeAux 0 (splitLines text)).2 ≠ [])
    ∧ ((decodeAux 0 (splitLines text)).2 ≠ []
        → patchRun src text = Except.error ((decodeAux 0 (splitLines text)).2)) := by
  refine ⟨decodeAux_errs _ 0, ⟨?_, ?_⟩, ?_⟩
  · rintro ⟨e, he⟩
    unfold patchRun at he
    by_cases hemp : (decodeAux 0 (splitLines text)).2.isEmpty
    · rw [if_pos hemp] at he
      exact Except.noConfusion he
    · exact fun hc => hemp (by rw [hc]; rfl)
  · intro hne
    unfold patchRun
    rw [if_neg (fun hc => hne (List.isEmpty_eq_true.mp hc))]
    exact ⟨_, rfl⟩
  · intro hne
    unfold patchRun
    rw [if_neg (fun hc => hne (List.isEmpty_eq_true.mp hc))]

/-- C5 witness: a one-line patch text with an invalid tag is collected as
the single error at line 1 and the run fails with it. -/
theorem claimC5_witness :
    patchRun [] ['Q', ' ', '0', ' ', 'x', '\n']
      = Except.error [(1, ['Q', ' ', '0', ' ', 'x', '\n'])] := by
  have h := (claimC5_collect_then_fail ['Q', ' ', '0', ' ', 'x', '\n'] []).2.2 (by decide)
  rw [h]
  rfl

/-- C6 (blank-line tolerance): evaluation of the decoder on a patch text
consisting of a single blank line. readlines keeps the newline, so the
length-zero check at line 144 never fires; the regexp rejects the line and
decode reports a parse error at line 1 instead of silently skipping it. -/
theorem claimC6_blank_line_errors :
    splitLines ['\n'] = [['\n']]
      ∧ (decodeAux 0 (splitLines ['\n'])).2 = [(1, ['\n'])]
      ∧ patchRun [] ['\n'] = Except.error [(1, ['\n'])] := by
  refine ⟨by decide, by decide, rfl⟩

/-- C7 (codec round-trip): decoding the printed text of a script whose
operations are tagged A or R and whose line contents contain no newline
yields the same script back, in order, with no errors collected. -/
theorem claimC7_codec_roundtrip (S : List (Op PyStr))
    (h : ∀ op ∈ S, (op.1 = 'A' ∨ op.1 = 'R') ∧ '\n' ∉ op.2.2) :
    decodeAux 0 (splitLines (encodeScript S)) = (S, []) :=
  decode_encode S h 0

/-- C7 witness: a concrete two-operation script survives the round trip. -/
theorem claimC7_witness :
    decodeAux 0 (splitLines (encodeScript [('A', 0, ['x']), ('R', 12, ['h', 'i'])]))
      = ([('A', 0, ['x']), ('R', 12, ['h', 'i'])], []) :=
  claimC7_codec_roundtrip [('A', 0, ['x']), ('R', 12, ['h', 'i'])] (by decide)

/-- C8 (no-op diff): the script computed between two equal sequences is
empty. -/
theorem claimC8_noop_diff (A : List String) : edit_distance A A = [] := by
  rw [edit_distance_eq_btF, btF_diag]
  rfl

/-- C9 (termination): the backtrace loop, given a budget of len(s1) plus
len(s2) iterations, reaches (0, 0) and returns the collected operations
rather than running out of budget: the while loop terminates within
finitely many steps on every pair of inputs. -/
theorem claimC9_termination (s1 s2 : List String) :
    btFuelT s1 s2 (fillTables s1 s2).2 (s1.length + s2.length) s1.length s2.length
      = BtRes.ok ((edit_distance s1 s2).reverse) := by
  rw [edit_distance_eq_btF, List.reverse_reverse]
  exact btFuelT_complete s1 s2 _ _ _ le_rfl le_rfl le_rfl

/-- C10 (unreachable branches are dead): the backtrace never returns the
marker of the assert False at line 82, whatever its budget, because every
cell it visits holds one of I, A, R; every operation decoded through the
patch regexp is tagged A or R; and the apply loop never reaches the assert
False at line 161 on any operation list whose tags are all A or R. -/
theorem claimC10_asserts_dead :
    (∀ (s1 s2 : List String) (fuel : Nat),
      btFuelT s1 s2 (fillTables s1 s2).2 fuel s1.length s2.length ≠ BtRes.unreachableHit)
    ∧ (∀ text : PyStr, ∀ op ∈ (decodeAux 0 (splitLines text)).1, op.1 = 'A' ∨ op.1 = 'R')
    ∧ (∀ (src : List PyStr) (ops : List (Op PyStr)),
        (∀ op ∈ ops, op.1 = 'A' ∨ op.1 = 'R') →
          applyPy src ops ≠ ApplyResult.badAction) := by
  refine ⟨?_, ?_, ?_⟩
  · intro s1 s2 fuel
    exact btFuelT_no_unreachable s1 s2 fuel _ _ le_rfl le_rfl
  · intro text op hop
    exact decodeAux_ops_tags _ 0 op hop
  · intro src ops h
    unfold applyPy
    exact applyLoop_no_badAction ops.reverse
      (fun op hop => h op (List.mem_reverse.mp hop)) src

/-- C10 witness: the apply loop on a concrete decoded-shape operation list
does not hit the assert branch. -/
theorem claimC10_witness :
    applyPy [['a']] [('A', 0, ['b'])] ≠ ApplyResult.badAction :=
  claimC10_asserts_dead.2.2 [['a']] [('A', 0, ['b'])] (by decide)

end Piff
